import Mathlib

/-!
Verification of the optimal piecewise-linear-approximation (PLA) model and the
manifest writer of the RMI repository (src/rmi_lib/src/models/optimal_pla.rs and
src/rmi_lib/src/manifest.rs).

Modelling conventions (shallow embedding):
* Rust `f64` values are modelled as exact rationals (ℚ).  All arithmetic the
  claims depend on is either exact in `f64` as well (single-point fits, the
  loop-structure invariants) or is stated about the idealised real-number
  semantics of the code.
* Rust `u64` keys and `usize` positions/indices are modelled as `Nat`;
  the `u64::MAX` sentinel is the explicit constant `2 ^ 64 - 1`.
* `RMITrainingData<T>` is modelled as a `List TP` of (key, position) pairs;
  `as_uint` is the key itself and `as_float` is the exact cast into ℚ.
* Loops are embedded as fuel-indexed structural recursions; every call site
  passes fuel that provably dominates the number of iterations, so the
  embedded functions compute exactly what the Rust loops compute.
-/

namespace RMI

/-- One training pair of `RMITrainingData`: `key` is the `u64` projection
(`as_uint`) of the key and `pos` its 0-based position. -/
structure TP where
  key : Nat
  pos : Nat
deriving DecidableEq

/-- Default pair used for the `getD` embedding of panicking index accesses. -/
def tpDefault : TP := ⟨0, 0⟩

/-- The `u64::MAX` sentinel boundary. -/
def U64MAX : Nat := 2 ^ 64 - 1

/-- The `MAX_SEGMENT_ABS_ERROR` constant of optimal_pla.rs. -/
def MAX_SEGMENT_ABS_ERROR : ℚ := 1

/-- State of the online accumulator inside `simple_lr`
(mean_x, mean_y, c, n, m2, data_size of the Rust source). -/
structure LRState where
  mean_x : ℚ
  mean_y : ℚ
  c : ℚ
  n : Nat
  m2 : ℚ
  data_size : Nat
deriving DecidableEq

/-- Initial accumulator state of `simple_lr` (all zeros). -/
def lrStart : LRState := ⟨0, 0, 0, 0, 0, 0⟩

/-- One iteration of the `for (x, y) in loc_data` loop of `simple_lr`;
note that `c` is updated with the already-updated `mean_y`, and `m2` with
`dx * dx2` where `dx2` uses the updated `mean_x`, exactly as in the source. -/
def lrStep (s : LRState) (p : ℚ × ℚ) : LRState :=
  let n : Nat := s.n + 1
  let dx : ℚ := p.1 - s.mean_x
  let mean_x : ℚ := s.mean_x + dx / (n : ℚ)
  let mean_y : ℚ := s.mean_y + (p.2 - s.mean_y) / (n : ℚ)
  let c : ℚ := s.c + dx * (p.2 - mean_y)
  let dx2 : ℚ := p.1 - mean_x
  { mean_x := mean_x, mean_y := mean_y, c := c, n := n,
    m2 := s.m2 + dx * dx2, data_size := s.data_size + 1 }

/-- Embedding of `simple_lr`: returns `(alpha, beta)`, i.e. (intercept, slope).
The divisions by `n - 1` only occur with `data_size ≥ 2`, so the `Nat`
subtraction matches the `u64` subtraction of the source. -/
def simple_lr (l : List (ℚ × ℚ)) : ℚ × ℚ :=
  let s := l.foldl lrStep lrStart
  if s.data_size = 0 then (0, 0)
  else if s.data_size = 1 then (s.mean_y, 0)
  else
    let cov := s.c / ((s.n - 1 : Nat) : ℚ)
    let var := s.m2 / ((s.n - 1 : Nat) : ℚ)
    if var = 0 then (s.mean_y, 0)
    else
      let beta := cov / var
      (s.mean_y - beta * s.mean_x, beta)

/-- The sub-range `data.iter().skip(start).take(end - start)` of the data. -/
def dataSlice (data : List TP) (start e : Nat) : List TP :=
  (data.drop start).take (e - start)

/-- Embedding of `segment_error`: maximum absolute residual
`|beta * key + alpha - pos|` over the sub-range, folded with `f64::max`
from `0.0`. -/
def segment_error (data : List TP) (start e : Nat) (params : ℚ × ℚ) : ℚ :=
  (dataSlice data start e).foldl
    (fun acc p => max acc |params.2 * (p.key : ℚ) + params.1 - (p.pos : ℚ)|) 0

/-- Embedding of `fit_segment`: least-squares fit of the sub-range. -/
def fit_segment (data : List TP) (start e : Nat) : ℚ × ℚ :=
  simple_lr ((dataSlice data start e).map (fun p => ((p.key : ℚ), (p.pos : ℚ))))

/-- The inner `while end < data.len()` growth loop of `build_segments`:
starting from the candidate end `e`, keep extending while the refit candidate
error stays within `MAX_SEGMENT_ABS_ERROR`; returns the final exclusive end.
Since the final accepted parameters are always `fit_segment data start e` for
the final `e`, the loop state reduces to the end index.  Fuel-indexed; all call
sites pass fuel that dominates the iteration count. -/
def growSegment (data : List TP) (start : Nat) : Nat → Nat → Nat
  | e, 0 => e
  | e, fuel + 1 =>
    if e < data.length then
      if segment_error data start (e + 1) (fit_segment data start (e + 1)) ≤
          MAX_SEGMENT_ABS_ERROR then
        growSegment data start (e + 1) fuel
      else e
    else e

/-- One segment produced by `build_segments`, together with the index range
`[startIdx, endIdx)` of the data it was fit on (the range is implicit in the
source's loop state and is recorded here so invariants can speak about the
points of a segment). `alpha` is the intercept, `beta` the slope. -/
structure Segment where
  startIdx : Nat
  endIdx : Nat
  alpha : ℚ
  beta : ℚ
deriving DecidableEq

/-- Default segment for `getD`-style access. -/
def segDefault : Segment := ⟨0, 0, 0, 0⟩

/-- The outer `while start < data.len()` loop of `build_segments`, producing
the list of segments.  Fuel-indexed; one iteration consumes one unit and
advances `start` by at least one. -/
def buildSegmentsAux (data : List TP) : Nat → Nat → List Segment
  | _, 0 => []
  | start, fuel + 1 =>
    if start < data.length then
      let e := growSegment data start (start + 1) data.length
      let p := fit_segment data start e
      ⟨start, e, p.1, p.2⟩ :: buildSegmentsAux data e fuel
    else []

/-- All segments produced for a (nonempty) data set. -/
def plaSegments (data : List TP) : List Segment :=
  buildSegmentsAux data 0 data.length

/-- Embedding of `data.get_key(i).as_uint()`. -/
def getKeyUint (data : List TP) (i : Nat) : Nat := (data.getD i tpDefault).key

/-- Embedding of `build_segments`: `(intercepts, slopes, boundaries)`;
the empty data set yields the catch-all `([0.0], [0.0], [u64::MAX])`, and a
nonempty one yields, per segment, its intercept, slope and the `u64` key of
its last included point. -/
def build_segments (data : List TP) : List ℚ × List ℚ × List Nat :=
  if data.length = 0 then ([0], [0], [U64MAX])
  else ((plaSegments data).map Segment.alpha,
        (plaSegments data).map Segment.beta,
        (plaSegments data).map (fun s => getKeyUint data (s.endIdx - 1)))

/-- The `OptimalPLAModel` struct. -/
structure OptimalPLAModel where
  intercepts : List ℚ
  slopes : List ℚ
  boundaries : List Nat
deriving DecidableEq

/-- Embedding of `OptimalPLAModel::new`. -/
def OptimalPLAModel.new (data : List TP) : OptimalPLAModel :=
  let t := build_segments data
  ⟨t.1, t.2.1, t.2.2⟩

/-- The halving loop of `slice::binary_search` on `(left, right)`;
returns `Sum.inl i` on an exact match at index `i` and `Sum.inr left` with the
insertion point otherwise.  For a sorted slice this computes the documented
(and, on a strictly sorted slice, the unique conforming) result of Rust's
`binary_search`.  Fuel-indexed; `right - left` shrinks every iteration, so
fuel `bs.length` always suffices. -/
def bsGo (bs : List Nat) (key : Nat) : Nat → Nat → Nat → Sum Nat Nat
  | left, _, 0 => Sum.inr left
  | left, right, fuel + 1 =>
    if left < right then
      let mid := left + (right - left) / 2
      let v := bs.getD mid 0
      if v < key then bsGo bs key (mid + 1) right fuel
      else if key < v then bsGo bs key left mid fuel
      else Sum.inl mid
    else Sum.inr left

/-- Embedding of `self.boundaries.binary_search(&key)`. -/
def binarySearch (bs : List Nat) (key : Nat) : Sum Nat Nat :=
  bsGo bs key 0 bs.length bs.length

/-- The segment index computed by `predict_to_float`: exact match selects the
next index, a non-match selects the insertion point, and the result is clamped
with `idx.min(self.intercepts.len() - 1)`.  (`len() - 1` is `usize`
subtraction; it is only evaluated with nonempty boundaries, and all models the
code builds have equally long nonempty arrays — see `C10_boundary_invariants`
— so the Nat truncated subtraction used here agrees with the source.) -/
def predictIndex (m : OptimalPLAModel) (key : Nat) : Nat :=
  let idx : Nat :=
    match binarySearch m.boundaries key with
    | Sum.inl exact => exact + 1
    | Sum.inr insert => insert
  min idx (m.intercepts.length - 1)

/-- Embedding of `predict_to_float` for a `u64` query key (`inp.as_int()` is
the key itself and `inp.as_float()` its exact ℚ cast); the fused multiply-add
`slopes[i].mul_add(inp, intercepts[i])` is exact over ℚ. -/
def predict_to_float (m : OptimalPLAModel) (key : Nat) : ℚ :=
  if m.boundaries.isEmpty then 0
  else m.slopes.getD (predictIndex m key) 0 * (key : ℚ) +
       m.intercepts.getD (predictIndex m key) 0

/-- Modelled from the spec: `predict_to_int` lives in the Model trait code
(models/mod.rs), which is not among the shown sources; per the spec the
reference model "truncates toward the computed float", i.e. performs the
saturating integer truncation of the float prediction (`as u64`). -/
def predict_to_int (m : OptimalPLAModel) (key : Nat) : Nat :=
  (⌊predict_to_float m key⌋).toNat

/-- Embedding of `set_to_constant_model`: returns the success flag together
with the updated model (the mutation is made explicit). -/
def set_to_constant_model (m : OptimalPLAModel) (constant : Nat) :
    Bool × OptimalPLAModel :=
  (true, { m with intercepts := [(constant : ℚ)], slopes := [0],
                  boundaries := [U64MAX] })

/-- Embedding of `needs_bounds_check` for `OptimalPLAModel`. -/
def needs_bounds_check (_ : OptimalPLAModel) : Bool := false

/-- Instrumentation of the inner growth loop of `build_segments`: the number
of times the data point at index `start` is read by `fit_segment` and
`segment_error` during the candidate-extension iterations (each iteration
calls both on the slice starting at `start`, so it reads the point at `start`
twice — also when the candidate is rejected).  The control flow mirrors
`growSegment` exactly. -/
def growVisits (data : List TP) (start : Nat) : Nat → Nat → Nat
  | _, 0 => 0
  | e, fuel + 1 =>
    if e < data.length then
      2 + (if segment_error data start (e + 1) (fit_segment data start (e + 1)) ≤
          MAX_SEGMENT_ABS_ERROR then growVisits data start (e + 1) fuel else 0)
    else 0

/-- Number of times the first data point is read by `fit_segment` and
`segment_error` while `build_segments` builds the segment starting at index 0
(the initial one-point fit and error computation read it once each, and every
candidate extension reads it twice more). -/
def visitsOfFirstPoint (data : List TP) : Nat :=
  if data.length = 0 then 0 else 2 + growVisits data 0 1 data.length

/-- The exact-line data sets used by the tests/spec scenarios:
`{(i, 2*i) for i in 0..n}`. -/
def lineData (n : Nat) : List TP := (List.range n).map (fun i => ⟨i, 2 * i⟩)

/-! ### Embedding of manifest.rs -/

/-- The `ParamKind` enum of manifest.rs. -/
inductive ParamKind where
  | Int
  | Float
  | ShortArray
  | IntArray
  | Int32Array
  | FloatArray
deriving DecidableEq

/-- The `ParamValue` enum of manifest.rs; integer widths (u16/u32/u64) are
modelled as `Nat` and `f64` as ℚ. -/
inductive ParamValue where
  | Int (v : Nat)
  | Float (v : ℚ)
  | ShortArray (v : List Nat)
  | IntArray (v : List Nat)
  | Int32Array (v : List Nat)
  | FloatArray (v : List ℚ)
deriving DecidableEq

/-- The `ParameterDescriptor` struct of manifest.rs. -/
structure ParameterDescriptor where
  kind : ParamKind
  len : Nat
deriving DecidableEq

/-- The `LayerStorage` enum of manifest.rs. -/
inductive LayerStorage where
  | Constant (values : List ParamValue)
  | Array (file : String)
  | MixedArray (file : String)
deriving DecidableEq

/-- The `LayerMetadata` struct of manifest.rs. -/
structure LayerMetadata where
  index : Nat
  model_type : String
  num_models : Nat
  params_per_model : Nat
  parameters : List ParameterDescriptor
  storage : LayerStorage
deriving DecidableEq

/-- The `CacheFixMetadata` struct of manifest.rs. -/
structure CacheFixMetadata where
  file : String
  line_size : Nat
  points : Nat
deriving DecidableEq

/-- Modelled from the spec: the `TrainedRMI` struct lives in train.rs, which
is not among the shown sources — its fields here are exactly those that
`write_metadata` in manifest.rs reads (model-type name sequence, branching
factor, build time, row counts, and the aggregate error statistics), with
`u64`/`u128`/`usize` as `Nat` and `f64` as ℚ. -/
structure TrainedRMI where
  models : String
  branching_factor : Nat
  build_time : Nat
  num_rmi_rows : Nat
  num_data_rows : Nat
  model_avg_error : ℚ
  model_avg_l2_error : ℚ
  model_avg_log2_error : ℚ
  model_max_error : Nat
  model_max_error_idx : Nat
  model_max_log2_error : ℚ

/-- The `RmiMetadata` struct of manifest.rs (`namespace` is a Lean keyword,
so the field is called `nspace`). -/
structure RmiMetadata where
  nspace : String
  key_type : String
  models : String
  branching_factor : Nat
  build_time_ns : Nat
  num_rmi_rows : Nat
  num_data_rows : Nat
  model_avg_error : ℚ
  model_avg_l2_error : ℚ
  model_avg_log2_error : ℚ
  model_max_error : Nat
  model_max_error_idx : Nat
  model_max_log2_error : ℚ
  last_layer_reports_error : Bool
  layers : List LayerMetadata
  cache_fix : Option CacheFixMetadata

/-- Embedding of `RmiMetadata::manifest_path`:
`data_dir.join(namespace).join("manifest.json")`, with `Path::join` of
relative components modelled as string concatenation with the separator. -/
def manifest_path (data_dir : String) (nspace : String) : String :=
  data_dir ++ "/" ++ nspace ++ "/" ++ "manifest.json"

/-- The pure core of `write_metadata`: the `RmiMetadata` value it constructs
and serializes (`key_type` stands for `key_type.as_str().to_string()`; the
directory creation, file I/O and JSON encoding are outside the embedding). -/
def write_metadata_record (nspace : String) (key_type : String)
    (rmi : TrainedRMI) (last_layer_reports_error : Bool)
    (layers : List LayerMetadata) (cache_fix : Option CacheFixMetadata) :
    RmiMetadata :=
  { nspace := nspace
    key_type := key_type
    models := rmi.models
    branching_factor := rmi.branching_factor
    build_time_ns := rmi.build_time
    num_rmi_rows := rmi.num_rmi_rows
    num_data_rows := rmi.num_data_rows
    model_avg_error := rmi.model_avg_error
    model_avg_l2_error := rmi.model_avg_l2_error
    model_avg_log2_error := rmi.model_avg_log2_error
    model_max_error := rmi.model_max_error
    model_max_error_idx := rmi.model_max_error_idx
    model_max_log2_error := rmi.model_max_log2_error
    last_layer_reports_error := last_layer_reports_error
    layers := layers
    cache_fix := cache_fix }

/-- The concrete spec scenario `{(i, 2i) for i in 0..50}`. -/
def line50 : List TP := lineData 50

/-- A data set with two far-apart linear clusters of incompatible intercepts,
forcing two PLA segments. -/
def data6 : List TP :=
  [⟨0, 0⟩, ⟨1, 1⟩, ⟨2, 2⟩, ⟨100, 1200⟩, ⟨101, 1201⟩, ⟨102, 1202⟩]

/-- Points lying exactly on the line `y = a * x + b`. -/
def OnLineQ (a b : ℚ) (l : List (ℚ × ℚ)) : Prop := ∀ p ∈ l, p.2 = a * p.1 + b

/-- Training data lying exactly on the line `pos = a * key + b` (over ℚ). -/
def OnLineData (a b : ℚ) (data : List TP) : Prop :=
  ∀ p ∈ data, (p.pos : ℚ) = a * (p.key : ℚ) + b

/-- Invariant satisfied by every segment the outer loop emits: a nonempty
in-bounds index range, parameters equal to the final least-squares fit of that
range, and a maximum absolute error within the threshold. -/
def SegInv (data : List TP) (s : Segment) : Prop :=
  s.startIdx < s.endIdx ∧ s.endIdx ≤ data.length ∧
  (s.alpha, s.beta) = fit_segment data s.startIdx s.endIdx ∧
  segment_error data s.startIdx s.endIdx (s.alpha, s.beta) ≤
    MAX_SEGMENT_ABS_ERROR

/-- Consecutive segments chain: the first segment starts at `start` and each
segment starts where the previous one ended. -/
def SegsChained : Nat → List Segment → Prop
  | _, [] => True
  | start, s :: rest => s.startIdx = start ∧ SegsChained s.endIdx rest

/-! ### Basic lemmas about the maximum-residual fold -/

/-- A `foldl max` is bounded by `B` iff the seed and every folded value are. -/
theorem foldl_max_le_iff (g : TP → ℚ) (l : List TP) (acc B : ℚ) :
    l.foldl (fun a p => max a (g p)) acc ≤ B ↔ acc ≤ B ∧ ∀ p ∈ l, g p ≤ B := by
  induction l generalizing acc with
  | nil => simp
  | cons q l ih =>
    simp only [List.foldl_cons, ih, max_le_iff, List.mem_cons]
    constructor
    · rintro ⟨⟨h1, h2⟩, h3⟩
      exact ⟨h1, fun p hp => hp.elim (fun hq => hq ▸ h2) (h3 p)⟩
    · rintro ⟨h1, h2⟩
      exact ⟨⟨h1, h2 q (Or.inl rfl)⟩, fun p hp => h2 p (Or.inr hp)⟩

/-- Characterisation of `segment_error ≤ B`. -/
theorem segment_error_le_iff (data : List TP) (start e : Nat) (params : ℚ × ℚ)
    (B : ℚ) :
    segment_error data start e params ≤ B ↔
      0 ≤ B ∧ ∀ p ∈ dataSlice data start e,
        |params.2 * (p.key : ℚ) + params.1 - (p.pos : ℚ)| ≤ B := by
  exact foldl_max_le_iff _ _ _ _

/-- Members of a slice are members of the data. -/
theorem mem_of_mem_dataSlice {data : List TP} {start e : Nat} {p : TP}
    (h : p ∈ dataSlice data start e) : p ∈ data := by
  have h1 : p ∈ data.drop start := (List.take_sublist _ _).mem h
  exact (List.drop_sublist _ _).mem h1

/-! ### Exactness of the online least-squares fit on collinear data -/

/-- Unfolded form of one accumulator step. -/
theorem lrStep_def (s : LRState) (p : ℚ × ℚ) :
    lrStep s p =
      ⟨s.mean_x + (p.1 - s.mean_x) / ((s.n + 1 : Nat) : ℚ),
       s.mean_y + (p.2 - s.mean_y) / ((s.n + 1 : Nat) : ℚ),
       s.c + (p.1 - s.mean_x) *
         (p.2 - (s.mean_y + (p.2 - s.mean_y) / ((s.n + 1 : Nat) : ℚ))),
       s.n + 1,
       s.m2 + (p.1 - s.mean_x) *
         (p.1 - (s.mean_x + (p.1 - s.mean_x) / ((s.n + 1 : Nat) : ℚ))),
       s.data_size + 1⟩ := rfl

/-- Invariant of the Welford-style accumulator on collinear input: the running
means stay on the line, the cross-moment accumulator is the slope times the
second-moment accumulator, and the second moment is nonnegative, vanishing
only if all abscissas processed so far are equal to the running mean. -/
theorem lr_fold_inv (a b : ℚ) (l : List (ℚ × ℚ)) (hne : l ≠ [])
    (hline : OnLineQ a b l) :
    (l.foldl lrStep lrStart).n = l.length ∧
    (l.foldl lrStep lrStart).data_size = l.length ∧
    (l.foldl lrStep lrStart).mean_y =
      a * (l.foldl lrStep lrStart).mean_x + b ∧
    (l.foldl lrStep lrStart).c = a * (l.foldl lrStep lrStart).m2 ∧
    0 ≤ (l.foldl lrStep lrStart).m2 ∧
    ((l.foldl lrStep lrStart).m2 = 0 →
      ∀ p ∈ l, p.1 = (l.foldl lrStep lrStart).mean_x) := by
  induction l using List.reverseRecOn with
  | nil => exact absurd rfl hne
  | append_singleton l q ih =>
    have hq : q.2 = a * q.1 + b := hline q (by simp)
    have hl : OnLineQ a b l := fun p hp => hline p (by simp [hp])
    rw [List.foldl_append, List.foldl_cons, List.foldl_nil]
    by_cases hl0 : l = []
    · subst hl0
      rw [lrStep_def]
      refine ⟨rfl, rfl, ?_, ?_, ?_, ?_⟩
      · simp [lrStart, hq]
      · simp [lrStart]
      · simp [lrStart]
      · intro _ p hp
        simp only [List.nil_append, List.mem_singleton] at hp
        subst hp
        simp [lrStart]
    · obtain ⟨hn, hds, hy, hc, hm2, hunif⟩ := ih hl0 hl
      set s : LRState := l.foldl lrStep lrStart with hs
      have hlen : 1 ≤ l.length := by
        cases l with
        | nil => exact absurd rfl hl0
        | cons x xs => simp
      have hn1 : 1 ≤ s.n := hn ▸ hlen
      set N : ℚ := ((s.n + 1 : Nat) : ℚ) with hNdef
      have hNval : N = (s.n : ℚ) + 1 := by push_cast [hNdef]; ring
      have hNpos : (0 : ℚ) < N := by
        rw [hNval]; positivity
      have hN0 : N ≠ 0 := ne_of_gt hNpos
      have hnQpos : (0 : ℚ) < (s.n : ℚ) := by
        exact_mod_cast Nat.lt_of_lt_of_le Nat.zero_lt_one hn1
      rw [lrStep_def]
      set dx : ℚ := q.1 - s.mean_x with hdx
      have hmx' : q.1 - (s.mean_x + dx / N) = dx * (s.n : ℚ) / N := by
        rw [hdx, hNval]; field_simp; ring
      have hmy' : s.mean_y + (q.2 - s.mean_y) / N = a * (s.mean_x + dx / N) + b := by
        rw [hy, hq, hdx]; field_simp; ring
      have hinc : dx * (q.1 - (s.mean_x + dx / N)) = dx ^ 2 * (s.n : ℚ) / N := by
        rw [hmx']; ring
      have hincnn : 0 ≤ dx ^ 2 * (s.n : ℚ) / N := by positivity
      refine ⟨?_, ?_, ?_, ?_, ?_, ?_⟩
      · simpa using hn
      · simpa using hds
      · exact hmy'
      · have : q.2 - (s.mean_y + (q.2 - s.mean_y) / N) =
            a * (q.1 - (s.mean_x + dx / N)) := by
          rw [hmy', hq]; ring
        simp only [this, hc]; ring
      · simp only [hinc]
        exact add_nonneg hm2 hincnn
      · intro hzero p hp
        have hz : s.m2 + dx ^ 2 * (s.n : ℚ) / N = 0 := by
          rw [← hinc]; exact hzero
        have h1 : s.m2 = 0 ∧ dx ^ 2 * (s.n : ℚ) / N = 0 :=
          (add_eq_zero_iff_of_nonneg hm2 hincnn).mp hz
        have hdx0 : dx = 0 := by
          have h2 : dx ^ 2 * (s.n : ℚ) / N = 0 := h1.2
          have h3 : dx ^ 2 = 0 := by
            by_contra hcon
            have : dx ^ 2 * (s.n : ℚ) / N ≠ 0 := by
              apply div_ne_zero _ hN0
              exact mul_ne_zero hcon (ne_of_gt hnQpos)
            exact this h2
          exact pow_eq_zero_iff (n := 2) (by norm_num) |>.mp h3
        have hmean : s.mean_x + dx / N = s.mean_x := by
          rw [hdx0]; simp
        rw [hmean]
        rcases List.mem_append.mp hp with hpl | hpq
        · exact hunif h1.1 p hpl
        · have hpq' : p = q := by simpa using hpq
          rw [hpq']
          have hq1 : q.1 - s.mean_x = 0 := hdx ▸ hdx0
          linarith

/-- On nonempty collinear input, the line fitted by `simple_lr` passes
exactly through every input point; this covers the generic branch as well as
the single-point and zero-variance fallback branches. -/
theorem simple_lr_exact (a b : ℚ) (l : List (ℚ × ℚ)) (hne : l ≠ [])
    (hline : OnLineQ a b l) :
    ∀ p ∈ l, (simple_lr l).2 * p.1 + (simple_lr l).1 = p.2 := by
  intro p hp
  have hinv := lr_fold_inv a b l hne hline
  simp only [simple_lr]
  set s : LRState := l.foldl lrStep lrStart with hs
  obtain ⟨hn, hds, hy, hc, hm2, hunif⟩ := hinv
  have hlen0 : l.length ≠ 0 := by
    have := List.length_pos.mpr hne
    omega
  have h0 : s.data_size ≠ 0 := by rw [hds]; exact hlen0
  rw [if_neg h0]
  by_cases h1 : s.data_size = 1
  · rw [if_pos h1]
    have hlen1 : l.length = 1 := by rw [← hds]; exact h1
    obtain ⟨p0, rfl⟩ := List.length_eq_one.mp hlen1
    have hpp : p = p0 := by simpa using hp
    subst hpp
    have : s.mean_y = p.2 := by
      rw [hs]
      simp [lrStep_def, lrStart]
    rw [this]
    ring
  · rw [if_neg h1]
    have h2 : 2 ≤ s.data_size := by omega
    have hn2 : 2 ≤ s.n := by rw [hn, ← hds]; exact h2
    have hk : ((s.n - 1 : Nat) : ℚ) ≠ 0 := by
      have hpos : 0 < s.n - 1 := by omega
      have : (0 : ℚ) < ((s.n - 1 : Nat) : ℚ) := by exact_mod_cast hpos
      exact ne_of_gt this
    by_cases hv : s.m2 / ((s.n - 1 : Nat) : ℚ) = 0
    · rw [if_pos hv]
      have hm20 : s.m2 = 0 := by
        rcases div_eq_zero_iff.mp hv with h | h
        · exact h
        · exact absurd h hk
      have hpx := hunif hm20 p hp
      rw [hy, hline p hp, hpx]
      ring
    · rw [if_neg hv]
      have hm2ne : s.m2 ≠ 0 := by
        intro h
        apply hv
        rw [h]
        simp
      have hk2 : ((s.n : ℚ) - 1) ≠ 0 := by
        have h2n : (2 : ℚ) ≤ (s.n : ℚ) := by exact_mod_cast hn2
        intro hcon
        linarith
      have hbeta : s.c / ((s.n - 1 : Nat) : ℚ) / (s.m2 / ((s.n - 1 : Nat) : ℚ)) = a := by
        rw [hc]
        field_simp
      rw [hbeta, hy, hline p hp]
      ring

/-- On collinear data every segment fit is exact at every point of its slice. -/
theorem fit_segment_exact (a b : ℚ) (data : List TP)
    (hline : OnLineData a b data) (start e : Nat) :
    ∀ p ∈ dataSlice data start e,
      (fit_segment data start e).2 * (p.key : ℚ) + (fit_segment data start e).1 =
        (p.pos : ℚ) := by
  intro p hp
  have hne : dataSlice data start e ≠ [] := by
    intro h
    rw [h] at hp
    exact absurd hp (List.not_mem_nil p)
  have hmapne :
      (dataSlice data start e).map (fun r => ((r.key : ℚ), (r.pos : ℚ))) ≠ [] := by
    simpa using hne
  have hlineQ : OnLineQ a b
      ((dataSlice data start e).map (fun r => ((r.key : ℚ), (r.pos : ℚ)))) := by
    intro q hq
    obtain ⟨r, hr, rfl⟩ := List.mem_map.mp hq
    exact hline r (mem_of_mem_dataSlice hr)
  have h := simple_lr_exact a b _ hmapne hlineQ ((p.key : ℚ), (p.pos : ℚ))
    (List.mem_map_of_mem _ hp)
  simpa [fit_segment] using h

/-- On collinear data every candidate segment error is within the threshold. -/
theorem segment_error_exact_le (a b : ℚ) (data : List TP)
    (hline : OnLineData a b data) (start e : Nat) :
    segment_error data start e (fit_segment data start e) ≤
      MAX_SEGMENT_ABS_ERROR := by
  rw [segment_error_le_iff]
  refine ⟨by norm_num [MAX_SEGMENT_ABS_ERROR], ?_⟩
  intro p hp
  have h := fit_segment_exact a b data hline start e p hp
  have hzero : (fit_segment data start e).2 * (p.key : ℚ) +
      (fit_segment data start e).1 - (p.pos : ℚ) = 0 := by
    rw [h]
    ring
  rw [hzero]
  norm_num [MAX_SEGMENT_ABS_ERROR]

/-! ### The greedy growth loop -/

/-- The growth loop never shrinks the candidate end. -/
theorem growSegment_ge (data : List TP) (start : Nat) :
    ∀ fuel e, e ≤ growSegment data start e fuel := by
  intro fuel
  induction fuel with
  | zero => intro e; simp [growSegment]
  | succ n ih =>
    intro e
    rw [growSegment]
    by_cases h1 : e < data.length
    · rw [if_pos h1]
      by_cases h2 : segment_error data start (e + 1) (fit_segment data start (e + 1)) ≤
          MAX_SEGMENT_ABS_ERROR
      · rw [if_pos h2]
        exact le_trans (Nat.le_succ e) (ih (e + 1))
      · rw [if_neg h2]
    · rw [if_neg h1]

/-- The growth loop never runs past the data. -/
theorem growSegment_le (data : List TP) (start : Nat) :
    ∀ fuel e, e ≤ data.length → growSegment data start e fuel ≤ data.length := by
  intro fuel
  induction fuel with
  | zero => intro e he; simpa [growSegment] using he
  | succ n ih =>
    intro e he
    rw [growSegment]
    by_cases h1 : e < data.length
    · rw [if_pos h1]
      by_cases h2 : segment_error data start (e + 1) (fit_segment data start (e + 1)) ≤
          MAX_SEGMENT_ABS_ERROR
      · rw [if_pos h2]
        exact ih (e + 1) h1
      · rw [if_neg h2]
        exact he
    · rw [if_neg h1]
      exact he

/-- The growth loop preserves the error bound of the current candidate: if the
candidate `[start, e)` is within the threshold on entry, the final segment
`[start, growSegment …)` is as well — every accepted extension re-established
the bound before the end index advanced. -/
theorem growSegment_err (data : List TP) (start : Nat) :
    ∀ fuel e,
      segment_error data start e (fit_segment data start e) ≤
        MAX_SEGMENT_ABS_ERROR →
      segment_error data start (growSegment data start e fuel)
          (fit_segment data start (growSegment data start e fuel)) ≤
        MAX_SEGMENT_ABS_ERROR := by
  intro fuel
  induction fuel with
  | zero => intro e he; simpa [growSegment] using he
  | succ n ih =>
    intro e he
    rw [growSegment]
    by_cases h1 : e < data.length
    · rw [if_pos h1]
      by_cases h2 : segment_error data start (e + 1) (fit_segment data start (e + 1)) ≤
          MAX_SEGMENT_ABS_ERROR
      · rw [if_pos h2]
        exact ih (e + 1) h2
      · rw [if_neg h2]
        exact he
    · rw [if_neg h1]
      exact he

/-- When every candidate error is within the threshold, the growth loop runs
to the end of the data (given enough fuel). -/
theorem growSegment_all (data : List TP) (start : Nat)
    (h : ∀ e', e' ≤ data.length →
      segment_error data start e' (fit_segment data start e') ≤
        MAX_SEGMENT_ABS_ERROR) :
    ∀ fuel e, e ≤ data.length → data.length - e ≤ fuel →
      growSegment data start e fuel = data.length := by
  intro fuel
  induction fuel with
  | zero =>
    intro e he hf
    have : e = data.length := by omega
    simpa [growSegment] using this
  | succ n ih =>
    intro e he hf
    rw [growSegment]
    by_cases h1 : e < data.length
    · rw [if_pos h1, if_pos (h (e + 1) h1)]
      exact ih (e + 1) h1 (by omega)
    · rw [if_neg h1]
      omega

/-! ### Invariants of the outer segmentation loop -/

/-- A single-point slice. -/
theorem dataSlice_single (data : List TP) (start : Nat) (h : start < data.length) :
    dataSlice data start (start + 1) = [data.getD start tpDefault] := by
  have h1 : data.drop start = data[start] :: data.drop (start + 1) :=
    List.drop_eq_getElem_cons h
  have h2 : start + 1 - start = 1 := by omega
  rw [dataSlice, h2, h1, List.take_succ_cons, List.take_zero,
    List.getD_eq_getElem data tpDefault h]

/-- The fit of a single point `(x, y)` is the constant line `(y, 0)`. -/
theorem simple_lr_single (x y : ℚ) : simple_lr [(x, y)] = (y, 0) := by
  norm_num [simple_lr, lrStep_def, lrStart]

/-- The error of the initial one-point candidate segment is zero, hence within
the threshold. -/
theorem segment_error_single (data : List TP) (start : Nat)
    (h : start < data.length) :
    segment_error data start (start + 1) (fit_segment data start (start + 1)) ≤
      MAX_SEGMENT_ABS_ERROR := by
  rw [segment_error_le_iff]
  refine ⟨by norm_num [MAX_SEGMENT_ABS_ERROR], ?_⟩
  intro p hp
  rw [dataSlice_single data start h] at hp
  have hpp : p = data.getD start tpDefault := by simpa using hp
  subst hpp
  have hfit : fit_segment data start (start + 1) =
      (((data.getD start tpDefault).pos : ℚ), 0) := by
    rw [fit_segment, dataSlice_single data start h, List.map_singleton,
      simple_lr_single]
  rw [hfit]
  norm_num [MAX_SEGMENT_ABS_ERROR]

/-- Every segment produced by the outer loop satisfies `SegInv`. -/
theorem buildSegmentsAux_inv (data : List TP) :
    ∀ fuel start, ∀ s ∈ buildSegmentsAux data start fuel, SegInv data s := by
  intro fuel
  induction fuel with
  | zero => intro start s hs; simp [buildSegmentsAux] at hs
  | succ n ih =>
    intro start s hs
    by_cases h : start < data.length
    · rw [buildSegmentsAux, if_pos h] at hs
      rcases List.mem_cons.mp hs with hhead | htail
      · subst hhead
        constructor
        · exact Nat.lt_of_lt_of_le (Nat.lt_succ_self start)
            (growSegment_ge data start data.length (start + 1))
        constructor
        · exact growSegment_le data start data.length (start + 1) h
        constructor
        · rfl
        · exact growSegment_err data start data.length (start + 1)
            (segment_error_single data start h)
      · exact ih _ s htail
    · rw [buildSegmentsAux, if_neg h] at hs
      simp at hs

/-- The outer loop emits chained segments. -/
theorem buildSegmentsAux_chained (data : List TP) :
    ∀ fuel start, SegsChained start (buildSegmentsAux data start fuel) := by
  intro fuel
  induction fuel with
  | zero => intro start; simp [buildSegmentsAux, SegsChained]
  | succ n ih =>
    intro start
    by_cases h : start < data.length
    · rw [buildSegmentsAux, if_pos h]
      exact ⟨rfl, ih _⟩
    · rw [buildSegmentsAux, if_neg h]
      simp [SegsChained]

/-- In a chained list of nonempty segments, every start is at least the
chain's origin. -/
theorem segsChained_start_le (l : List Segment) :
    ∀ start, SegsChained start l → (∀ s ∈ l, s.startIdx < s.endIdx) →
      ∀ s ∈ l, start ≤ s.startIdx := by
  induction l with
  | nil => intro start _ _ s hs; simp at hs
  | cons t rest ih =>
    intro start hch hlt s hs
    obtain ⟨hts, hrest⟩ := hch
    rcases List.mem_cons.mp hs with hh | ht
    · subst hh; omega
    · have h1 : t.endIdx ≤ s.startIdx :=
        ih t.endIdx hrest (fun r hr => hlt r (List.mem_cons_of_mem t hr)) s ht
      have h2 : t.startIdx < t.endIdx := hlt t (List.mem_cons_self t rest)
      omega

/-- Chained nonempty segments are pairwise ordered: each ends no later than
any later one starts. -/
theorem segsChained_pairwise (l : List Segment) :
    ∀ start, SegsChained start l → (∀ s ∈ l, s.startIdx < s.endIdx) →
      l.Pairwise (fun s t => s.endIdx ≤ t.startIdx) := by
  induction l with
  | nil => intro start _ _; exact List.Pairwise.nil
  | cons t rest ih =>
    intro start hch hlt
    obtain ⟨hts, hrest⟩ := hch
    refine List.Pairwise.cons ?_
      (ih t.endIdx hrest (fun r hr => hlt r (List.mem_cons_of_mem t hr)))
    intro r hr
    exact segsChained_start_le rest t.endIdx hrest
      (fun u hu => hlt u (List.mem_cons_of_mem t hu)) r hr

/-- Unfolding lemma: one iteration of the outer loop on in-range `start`. -/
theorem buildSegmentsAux_step (data : List TP) (start fuel : Nat)
    (h : start < data.length) :
    buildSegmentsAux data start (fuel + 1) =
      ⟨start, growSegment data start (start + 1) data.length,
       (fit_segment data start (growSegment data start (start + 1) data.length)).1,
       (fit_segment data start (growSegment data start (start + 1) data.length)).2⟩ ::
      buildSegmentsAux data (growSegment data start (start + 1) data.length) fuel := by
  rw [buildSegmentsAux, if_pos h]

/-- Unfolding lemma: the outer loop stops on an out-of-range `start`. -/
theorem buildSegmentsAux_stop (data : List TP) (start fuel : Nat)
    (h : ¬ start < data.length) :
    buildSegmentsAux data start (fuel + 1) = [] := by
  rw [buildSegmentsAux, if_neg h]

/-- The outer loop yields nothing from an out-of-range `start`, for any fuel. -/
theorem buildSegmentsAux_terminal (data : List TP) (start : Nat)
    (h : ¬ start < data.length) :
    ∀ fuel, buildSegmentsAux data start fuel = [] := by
  intro fuel
  cases fuel with
  | zero => rfl
  | succ n => exact buildSegmentsAux_stop data start n h

/-! ### Shape of the produced model -/

/-- Segments of a nonempty data set satisfy the invariant. -/
theorem plaSegments_inv (data : List TP) :
    ∀ s ∈ plaSegments data, SegInv data s :=
  buildSegmentsAux_inv data data.length 0

/-- Segments of a data set chain from index 0. -/
theorem plaSegments_chained (data : List TP) :
    SegsChained 0 (plaSegments data) :=
  buildSegmentsAux_chained data data.length 0

/-- A nonempty data set yields at least one segment. -/
theorem plaSegments_ne_nil (data : List TP) (h : data ≠ []) :
    plaSegments data ≠ [] := by
  have hpos : 0 < data.length := List.length_pos.mpr h
  rw [plaSegments]
  obtain ⟨n, hn⟩ : ∃ n, data.length = n + 1 := ⟨data.length - 1, by omega⟩
  rw [hn, buildSegmentsAux, if_pos (by omega : 0 < data.length)]
  exact List.cons_ne_nil _ _

/-- For nonempty data the model is the per-segment projection of the
segment list. -/
theorem new_eq_of_ne_nil (data : List TP) (h : data ≠ []) :
    OptimalPLAModel.new data =
      ⟨(plaSegments data).map Segment.alpha,
       (plaSegments data).map Segment.beta,
       (plaSegments data).map (fun s => getKeyUint data (s.endIdx - 1))⟩ := by
  have hpos : data.length ≠ 0 := by
    have := List.length_pos.mpr h
    omega
  rw [OptimalPLAModel.new, build_segments, if_neg hpos]

/-- For empty data the model is the catch-all constant model. -/
theorem new_nil : OptimalPLAModel.new [] = ⟨[0], [0], [U64MAX]⟩ := rfl

/-- The three parameter arrays always have the same length, and are nonempty. -/
theorem new_lengths (data : List TP) :
    (OptimalPLAModel.new data).intercepts.length =
      (OptimalPLAModel.new data).boundaries.length ∧
    (OptimalPLAModel.new data).slopes.length =
      (OptimalPLAModel.new data).boundaries.length ∧
    1 ≤ (OptimalPLAModel.new data).boundaries.length := by
  by_cases h : data = []
  · subst h
    rw [new_nil]
    exact ⟨rfl, rfl, le_refl 1⟩
  · rw [new_eq_of_ne_nil data h]
    refine ⟨by simp, by simp, ?_⟩
    have := plaSegments_ne_nil data h
    have hpos : 0 < (plaSegments data).length := List.length_pos.mpr this
    simpa using hpos

/-- Projection of the model's parameter arrays at a valid segment index. -/
theorem new_getD (data : List TP) (h : data ≠ []) (i : Nat)
    (hi : i < (plaSegments data).length) :
    (OptimalPLAModel.new data).slopes.getD i 0 =
      ((plaSegments data).getD i segDefault).beta ∧
    (OptimalPLAModel.new data).intercepts.getD i 0 =
      ((plaSegments data).getD i segDefault).alpha ∧
    (OptimalPLAModel.new data).boundaries.getD i 0 =
      getKeyUint data (((plaSegments data).getD i segDefault).endIdx - 1) := by
  rw [new_eq_of_ne_nil data h]
  have hmap : ∀ (f : Segment → ℚ),
      ((plaSegments data).map f).getD i 0 =
        f ((plaSegments data).getD i segDefault) := by
    intro f
    rw [List.getD_eq_getElem _ _ (by simpa using hi), List.getElem_map,
      List.getD_eq_getElem _ _ hi]
  have hmapN : ∀ (f : Segment → Nat),
      ((plaSegments data).map f).getD i 0 =
        f ((plaSegments data).getD i segDefault) := by
    intro f
    rw [List.getD_eq_getElem _ _ (by simpa using hi), List.getElem_map,
      List.getD_eq_getElem _ _ hi]
  exact ⟨hmap _, hmap _, hmapN _⟩

/-- A data point whose index lies in a segment's range is a member of that
segment's slice. -/
theorem getD_mem_dataSlice (data : List TP) (start e j : Nat)
    (h1 : start ≤ j) (h2 : j < e) (h3 : e ≤ data.length) :
    data.getD j tpDefault ∈ dataSlice data start e := by
  have hj : j < data.length := by omega
  have hlen : (dataSlice data start e).length = e - start := by
    rw [dataSlice, List.length_take, List.length_drop]
    omega
  have hidx : j - start < (dataSlice data start e).length := by omega
  rw [List.mem_iff_getElem]
  refine ⟨j - start, hidx, ?_⟩
  have hsd : start + (j - start) = j := by omega
  simp only [dataSlice, List.getElem_take, List.getElem_drop, hsd]
  rw [List.getD_eq_getElem data tpDefault hj]

/-- Every point of a slice has residual at most the slice's recorded maximum
absolute error. -/
theorem residual_le_segment_error (data : List TP) (start e : Nat)
    (params : ℚ × ℚ) (p : TP) (hp : p ∈ dataSlice data start e) :
    |params.2 * (p.key : ℚ) + params.1 - (p.pos : ℚ)| ≤
      segment_error data start e params :=
  ((segment_error_le_iff data start e params _).mp le_rfl).2 p hp

/-! ### Claim theorems -/

/-- Claim C1: for every training data set, every segment produced by the
optimal-PLA segmentation except possibly the last satisfies, for all points
(key, pos) of that segment, `|slope * key + intercept - pos| ≤ 1.0`, where
slope and intercept are the parameters recorded for that segment in the
trained model. -/
theorem C1_segment_error_bound (data : List TP) (i j : Nat)
    (hi : i + 1 < (plaSegments data).length)
    (hstart : ((plaSegments data).getD i segDefault).startIdx ≤ j)
    (hend : j < ((plaSegments data).getD i segDefault).endIdx) :
    |(OptimalPLAModel.new data).slopes.getD i 0 * ((data.getD j tpDefault).key : ℚ) +
      (OptimalPLAModel.new data).intercepts.getD i 0 -
      ((data.getD j tpDefault).pos : ℚ)| ≤ 1 := by
  have hilen : i < (plaSegments data).length := by omega
  have hdne : data ≠ [] := by
    intro h
    subst h
    have hnil : plaSegments ([] : List TP) = [] := rfl
    rw [hnil] at hi
    simp at hi
  obtain ⟨hslope, hint, _⟩ := new_getD data hdne i hilen
  rw [hslope, hint]
  have hmem : (plaSegments data).getD i segDefault ∈ plaSegments data := by
    rw [List.getD_eq_getElem _ _ hilen]
    exact List.getElem_mem hilen
  obtain ⟨hlt, hle, _, herr⟩ := plaSegments_inv data _ hmem
  have hp : data.getD j tpDefault ∈
      dataSlice data ((plaSegments data).getD i segDefault).startIdx
        ((plaSegments data).getD i segDefault).endIdx :=
    getD_mem_dataSlice data _ _ j hstart hend hle
  have hres := residual_le_segment_error data _ _
    (((plaSegments data).getD i segDefault).alpha,
     ((plaSegments data).getD i segDefault).beta) _ hp
  exact hres.trans (herr.trans_eq rfl)

/-! ### Concrete evaluation of the two-cluster data set -/

set_option maxHeartbeats 1000000 in
/-- First greedy segment of `data6`: the fourth point is rejected. -/
theorem grow_data6_0 : growSegment data6 0 (0 + 1) data6.length = 3 := by
  norm_num [growSegment, segment_error, fit_segment, dataSlice, simple_lr,
    lrStep, lrStart, data6, MAX_SEGMENT_ABS_ERROR, abs_le]

set_option maxHeartbeats 1000000 in
/-- Second greedy segment of `data6` runs to the end of the data. -/
theorem grow_data6_3 : growSegment data6 3 (3 + 1) data6.length = 6 := by
  norm_num [growSegment, segment_error, fit_segment, dataSlice, simple_lr,
    lrStep, lrStart, data6, MAX_SEGMENT_ABS_ERROR, abs_le]

set_option maxHeartbeats 1000000 in
/-- Least-squares fit of the first cluster of `data6` is the line `y = x`. -/
theorem fit_data6_0 : fit_segment data6 0 3 = (0, 1) := by
  norm_num [fit_segment, dataSlice, simple_lr, lrStep, lrStart, data6]

set_option maxHeartbeats 1000000 in
/-- Least-squares fit of the second cluster of `data6` is `y = x + 1100`. -/
theorem fit_data6_3 : fit_segment data6 3 6 = (1100, 1) := by
  norm_num [fit_segment, dataSlice, simple_lr, lrStep, lrStart, data6]

/-- The segmentation of `data6`: two segments. -/
theorem plaSegments_data6 :
    plaSegments data6 = [⟨0, 3, 0, 1⟩, ⟨3, 6, 1100, 1⟩] := by
  have h0 : (0 : Nat) < data6.length := by norm_num [data6]
  have h3 : (3 : Nat) < data6.length := by norm_num [data6]
  have h6 : ¬ (6 : Nat) < data6.length := by norm_num [data6]
  have hlen : data6.length = 6 := rfl
  rw [plaSegments, hlen]
  rw [show (6 : Nat) = 5 + 1 from rfl]
  rw [buildSegmentsAux_step data6 0 5 h0]
  rw [grow_data6_0, fit_data6_0]
  rw [show (5 : Nat) = 4 + 1 from rfl]
  rw [buildSegmentsAux_step data6 3 4 h3]
  rw [grow_data6_3, fit_data6_3]
  rw [show (4 : Nat) = 3 + 1 from rfl]
  rw [buildSegmentsAux_stop data6 6 3 h6]

/-- The trained model on `data6`. -/
theorem new_data6 :
    OptimalPLAModel.new data6 = ⟨[0, 1100], [1, 1], [2, 102]⟩ := by
  rw [new_eq_of_ne_nil data6 (by simp [data6]), plaSegments_data6]
  rfl

/-! ### Correctness of the embedded binary search -/

/-- Counting lemma: if a Boolean predicate holds exactly on the first `k`
positions of a list, the count of the predicate is `k`. -/
theorem countP_eq_of_bounds (bs : List Nat) (P : Nat → Bool) (k : Nat)
    (hk : k ≤ bs.length)
    (h1 : ∀ i, i < k → P (bs.getD i 0) = true)
    (h2 : ∀ i, k ≤ i → i < bs.length → P (bs.getD i 0) = false) :
    bs.countP P = k := by
  have hsplit : bs = bs.take k ++ bs.drop k := (List.take_append_drop k bs).symm
  rw [hsplit, List.countP_append]
  have htk : (bs.take k).countP P = k := by
    have hlen : (bs.take k).length = k := by
      rw [List.length_take]
      omega
    have hall : ∀ a ∈ bs.take k, P a := by
      intro a ha
      obtain ⟨i, hi, hval⟩ := List.mem_iff_getElem.mp ha
      have hik : i < k := by
        rw [hlen] at hi
        exact hi
      have hibs : i < bs.length := by omega
      have : (bs.take k)[i] = bs[i] := List.getElem_take bs
      rw [this] at hval
      have hPi := h1 i hik
      rw [List.getD_eq_getElem bs 0 hibs] at hPi
      rw [← hval]
      exact hPi
    calc (bs.take k).countP P = (bs.take k).length :=
          List.countP_eq_length.mpr hall
      _ = k := hlen
  have hdk : (bs.drop k).countP P = 0 := by
    apply List.countP_eq_zero.mpr
    intro a ha
    obtain ⟨i, hi, hval⟩ := List.mem_iff_getElem.mp ha
    have hlen2 : (bs.drop k).length = bs.length - k := List.length_drop k bs
    have hki : k + i < bs.length := by omega
    have : (bs.drop k)[i] = bs[k + i] := List.getElem_drop bs
    rw [this] at hval
    have hfalse := h2 (k + i) (by omega) hki
    rw [List.getD_eq_getElem bs 0 hki] at hfalse
    rw [← hval]
    simp [hfalse]
  rw [htk, hdk]
  omega

/-- Strictly sorted lists are strictly increasing position-wise. -/
theorem pairwise_lt_getD (bs : List Nat) (hs : bs.Pairwise (· < ·))
    (i j : Nat) (hij : i < j) (hj : j < bs.length) :
    bs.getD i 0 < bs.getD j 0 := by
  rw [List.getD_eq_getElem _ _ (lt_trans hij hj), List.getD_eq_getElem _ _ hj]
  exact List.pairwise_iff_getElem.mp hs i j _ _ hij

/-- Invariant proof of the halving loop on a strictly sorted list: it either
finds an exact match or returns the number of elements below the key, in
which case no element matches. -/
theorem bsGo_spec (bs : List Nat) (key : Nat)
    (hsort : bs.Pairwise (· < ·)) :
    ∀ fuel left right, right ≤ bs.length → left ≤ right → right - left ≤ fuel →
      (∀ i, i < left → bs.getD i 0 < key) →
      (∀ i, right ≤ i → i < bs.length → key < bs.getD i 0) →
      (∃ i, bsGo bs key left right fuel = Sum.inl i ∧ i < bs.length ∧
         bs.getD i 0 = key) ∨
      (bsGo bs key left right fuel = Sum.inr (bs.countP (fun b => b < key)) ∧
       ∀ i, i < bs.length → bs.getD i 0 ≠ key) := by
  intro fuel
  induction fuel with
  | zero =>
    intro left right hrlen hlr hfuel hlo hhi
    have hleft : left = right := by omega
    right
    subst hleft
    constructor
    · rw [bsGo]
      have hcount : bs.countP (fun b => b < key) = left := by
        apply countP_eq_of_bounds bs _ left (by omega)
        · intro i hi
          simpa using hlo i hi
        · intro i hi hilen
          simpa using not_lt.mpr (le_of_lt (hhi i hi hilen))
      rw [hcount]
    · intro i hilen
      by_cases hi : i < left
      · exact ne_of_lt (hlo i hi)
      · exact ne_of_gt (hhi i (by omega) hilen)
  | succ n ih =>
    intro left right hrlen hlr hfuel hlo hhi
    rw [bsGo]
    by_cases hlt : left < right
    · rw [if_pos hlt]
      have hmidlt : left + (right - left) / 2 < right := by omega
      have hmidge : left ≤ left + (right - left) / 2 := by omega
      have hmidlen : left + (right - left) / 2 < bs.length := by omega
      set mid := left + (right - left) / 2 with hmid
      by_cases hv1 : bs.getD mid 0 < key
      · rw [if_pos hv1]
        apply ih (mid + 1) right hrlen (by omega) (by omega) _ hhi
        intro i hi
        by_cases hil : i < left
        · exact hlo i hil
        · rcases Nat.lt_or_ge i mid with him | him
          · exact lt_trans (pairwise_lt_getD bs hsort i mid him hmidlen) hv1
          · have : i = mid := by omega
            rw [this]
            exact hv1
      · rw [if_neg hv1]
        by_cases hv2 : key < bs.getD mid 0
        · rw [if_pos hv2]
          apply ih left mid (by omega) (by omega) (by omega) hlo
          intro i hi hilen
          rcases Nat.lt_or_ge i right with hir | hir
          · rcases Nat.lt_or_ge mid i with hmi | hmi
            · exact lt_trans hv2 (pairwise_lt_getD bs hsort mid i hmi hilen)
            · have : i = mid := by omega
              rw [this]
              exact hv2
          · exact hhi i hir hilen
        · rw [if_neg hv2]
          left
          exact ⟨mid, rfl, hmidlen, by omega⟩
    · rw [if_neg hlt]
      have hleft : left = right := by omega
      right
      subst hleft
      constructor
      · have hcount : bs.countP (fun b => b < key) = left := by
          apply countP_eq_of_bounds bs _ left (by omega)
          · intro i hi
            simpa using hlo i hi
          · intro i hi hilen
            simpa using not_lt.mpr (le_of_lt (hhi i hi hilen))
        rw [hcount]
      · intro i hilen
        by_cases hi : i < left
        · exact ne_of_lt (hlo i hi)
        · exact ne_of_gt (hhi i (by omega) hilen)

/-- The embedded `binary_search` on a strictly sorted list either finds the
unique exact match or reports the insertion point with no element matching. -/
theorem binarySearch_spec (bs : List Nat) (key : Nat)
    (hsort : bs.Pairwise (· < ·)) :
    (∃ i, binarySearch bs key = Sum.inl i ∧ i < bs.length ∧
       bs.getD i 0 = key) ∨
    (binarySearch bs key = Sum.inr (bs.countP (fun b => b < key)) ∧
     ∀ i, i < bs.length → bs.getD i 0 ≠ key) := by
  apply bsGo_spec bs key hsort bs.length 0 bs.length (le_refl _) (Nat.zero_le _)
    (by omega)
  · intro i hi
    omega
  · intro i hi hilen
    omega

/-- On a strictly sorted list, a key present at index `i` is found there. -/
theorem binarySearch_exact (bs : List Nat) (key : Nat)
    (hsort : bs.Pairwise (· < ·)) (i : Nat) (hi : i < bs.length)
    (hkey : bs.getD i 0 = key) :
    binarySearch bs key = Sum.inl i := by
  rcases binarySearch_spec bs key hsort with ⟨j, heq, hj, hkj⟩ | ⟨_, hnone⟩
  · have hij : i = j := by
      rcases Nat.lt_trichotomy i j with h | h | h
      · have := pairwise_lt_getD bs hsort i j h hj
        omega
      · exact h
      · have := pairwise_lt_getD bs hsort j i h hi
        omega
    rw [hij]
    exact heq
  · exact absurd hkey (hnone i hi)

/-- On a strictly sorted list, an absent key yields the insertion point:
the number of elements smaller than the key. -/
theorem binarySearch_insert (bs : List Nat) (key : Nat)
    (hsort : bs.Pairwise (· < ·)) (hnot : key ∉ bs) :
    binarySearch bs key = Sum.inr (bs.countP (fun b => b < key)) := by
  rcases binarySearch_spec bs key hsort with ⟨j, _, hj, hkj⟩ | ⟨heq, _⟩
  · exfalso
    apply hnot
    rw [← hkj, List.getD_eq_getElem bs 0 hj]
    exact List.getElem_mem hj
  · exact heq

/-- If no element equals the key, counting strictly-smaller and
smaller-or-equal elements agree. -/
theorem countP_lt_eq_countP_le (bs : List Nat) (key : Nat)
    (hnone : ∀ i, i < bs.length → bs.getD i 0 ≠ key) :
    bs.countP (fun b => b < key) = bs.countP (fun b => b ≤ key) := by
  apply List.countP_congr
  intro x hx
  obtain ⟨i, hi, hval⟩ := List.mem_iff_getElem.mp hx
  have hne : x ≠ key := by
    rw [← hval]
    rw [← List.getD_eq_getElem bs 0 hi]
    exact hnone i hi
  simp only [decide_eq_true_eq]
  omega

/-- The selected segment index on a strictly sorted boundary array is the
number of boundaries at most the key, clamped to the last segment. -/
theorem predictIndex_eq_countP (m : OptimalPLAModel)
    (hsort : m.boundaries.Pairwise (· < ·)) (key : Nat) :
    predictIndex m key =
      min (m.boundaries.countP (fun b => b ≤ key))
        (m.intercepts.length - 1) := by
  rcases binarySearch_spec m.boundaries key hsort with
    ⟨i, heq, hlt, hkey⟩ | ⟨heq, hnone⟩
  · rw [predictIndex, heq]
    have hcount : m.boundaries.countP (fun b => b ≤ key) = i + 1 := by
      apply countP_eq_of_bounds m.boundaries _ (i + 1) (by omega)
      · intro j hj
        rcases Nat.lt_or_ge j i with hji | hji
        · have := pairwise_lt_getD m.boundaries hsort j i hji hlt
          simp only [decide_eq_true_eq]
          omega
        · have hj' : j = i := by omega
          rw [hj', hkey]
          simp
      · intro j hj hjlen
        have := pairwise_lt_getD m.boundaries hsort i j (by omega) hjlen
        simp only [decide_eq_false_iff_not, decide_eq_true_eq]
        omega
    rw [hcount]
  · rw [predictIndex, heq, countP_lt_eq_countP_le m.boundaries key hnone]

/-- Claim C3: the segment index is found by binary-searching the boundary
array; an exact match at `found_index` selects `found_index + 1`, a non-match
selects the insertion point, and the resulting index is clamped to the last
valid segment, for every query key. -/
theorem C3_boundary_search_policy (m : OptimalPLAModel)
    (hsort : m.boundaries.Pairwise (· < ·)) (key : Nat) :
    predictIndex m key =
      min (m.boundaries.countP (fun b => b ≤ key))
        (m.intercepts.length - 1) ∧
    (∀ i, i < m.boundaries.length → m.boundaries.getD i 0 = key →
      binarySearch m.boundaries key = Sum.inl i ∧
      predictIndex m key = min (i + 1) (m.intercepts.length - 1)) ∧
    (key ∉ m.boundaries →
      binarySearch m.boundaries key =
        Sum.inr (m.boundaries.countP (fun b => b < key)) ∧
      predictIndex m key =
        min (m.boundaries.countP (fun b => b < key))
          (m.intercepts.length - 1)) := by
  refine ⟨predictIndex_eq_countP m hsort key, ?_, ?_⟩
  · intro i hi hkey
    have hfound := binarySearch_exact m.boundaries key hsort i hi hkey
    exact ⟨hfound, by rw [predictIndex, hfound]⟩
  · intro hnot
    have hins := binarySearch_insert m.boundaries key hsort hnot
    exact ⟨hins, by rw [predictIndex, hins]⟩

/-- Claim C2 (amended): querying the exact boundary key of segment `i`
evaluates segment `min (i + 1) (last)`'s line, not segment `i`'s — the
exact-match tie rule maps a segment's own boundary key to the next segment's
parameters, clamped to the last segment; the original claim holds only when
`i` is the last segment. -/
theorem C2_amended_boundary_query (m : OptimalPLAModel)
    (hsort : m.boundaries.Pairwise (· < ·)) (i : Nat)
    (hi : i < m.boundaries.length) :
    predict_to_float m (m.boundaries.getD i 0) =
      m.slopes.getD (min (i + 1) (m.intercepts.length - 1)) 0 *
        ((m.boundaries.getD i 0 : Nat) : ℚ) +
      m.intercepts.getD (min (i + 1) (m.intercepts.length - 1)) 0 := by
  have hne : m.boundaries ≠ [] := by
    intro h
    rw [h] at hi
    simp at hi
  have hemp : m.boundaries.isEmpty = false := by
    rw [List.isEmpty_eq_false]
    exact hne
  have hfound := binarySearch_exact m.boundaries (m.boundaries.getD i 0)
    hsort i hi rfl
  rw [predict_to_float, hemp]
  rw [if_neg (by simp)]
  rw [predictIndex, hfound]

/-- Claim C2 counterexample: in the two-cluster model of `data6`, segment 0's
boundary key is 2 and segment 0's own line predicts 2 there, but the lookup at
key 2 returns 1102 — segment 1's parameters are used, so the boundary query
does not return segment 0's prediction. -/
theorem C2_counterexample :
    (OptimalPLAModel.new data6).boundaries.getD 0 0 = 2 ∧
    (OptimalPLAModel.new data6).slopes.getD 0 0 * ((2 : Nat) : ℚ) +
      (OptimalPLAModel.new data6).intercepts.getD 0 0 = 2 ∧
    predict_to_float (OptimalPLAModel.new data6) 2 = 1102 ∧
    (1102 : ℚ) ≠ 2 := by
  rw [new_data6]
  refine ⟨rfl, by norm_num, ?_, by norm_num⟩
  have hidx : predictIndex ⟨[0, 1100], [1, 1], [2, 102]⟩ 2 = 1 := rfl
  have hg1 : ([1, 1] : List ℚ).getD 1 0 = 1 := rfl
  have hg2 : ([0, 1100] : List ℚ).getD 1 0 = 1100 := rfl
  rw [predict_to_float]
  rw [if_neg (by simp)]
  rw [hidx, hg1, hg2]
  norm_num

/-- A single-segment model with slope 0 predicts its intercept everywhere. -/
theorem predict_const (c : ℚ) (b : Nat) (key : Nat) :
    predict_to_float ⟨[c], [0], [b]⟩ key = c := by
  rw [predict_to_float]
  rw [if_neg (by simp)]
  have hidx : predictIndex (⟨[c], [0], [b]⟩ : OptimalPLAModel) key = 0 := by
    rw [predictIndex]
    simp
  rw [hidx]
  norm_num

/-- Claim C4: building an optimal-PLA model from an empty training container
yields exactly one catch-all segment with intercept 0, slope 0 and boundary
`u64::MAX = 2^64 - 1`, and the resulting model predicts 0 for every query
key. -/
theorem C4_empty_input (key : Nat) :
    OptimalPLAModel.new [] = ⟨[0], [0], [U64MAX]⟩ ∧
    U64MAX = 2 ^ 64 - 1 ∧
    predict_to_float (OptimalPLAModel.new []) key = 0 := by
  refine ⟨rfl, rfl, ?_⟩
  rw [new_nil]
  exact predict_const 0 U64MAX key

/-- Claim C6: `set_to_constant_model` always returns `true` (the coercion
always succeeds), and afterwards the model predicts the constant value for
every query key. -/
theorem C6_set_to_constant (m : OptimalPLAModel) (c : Nat) (key : Nat) :
    (set_to_constant_model m c).1 = true ∧
    predict_to_float (set_to_constant_model m c).2 key = (c : ℚ) := by
  refine ⟨rfl, ?_⟩
  show predict_to_float ⟨[(c : ℚ)], [0], [U64MAX]⟩ key = (c : ℚ)
  exact predict_const (c : ℚ) U64MAX key

/-- Claim C7: for every model produced by construction (from any training
container) or by `set_to_constant_model`, prediction is total — the clamped
segment index is within the bounds of all three parameter arrays, the
prediction is the fused multiply-add at that index, and
`needs_bounds_check()` is `false`. -/
theorem C7_prediction_total (data : List TP) (key : Nat)
    (m' : OptimalPLAModel) (c : Nat) :
    predictIndex (OptimalPLAModel.new data) key <
      (OptimalPLAModel.new data).intercepts.length ∧
    predictIndex (OptimalPLAModel.new data) key <
      (OptimalPLAModel.new data).slopes.length ∧
    predictIndex (OptimalPLAModel.new data) key <
      (OptimalPLAModel.new data).boundaries.length ∧
    predict_to_float (OptimalPLAModel.new data) key =
      (OptimalPLAModel.new data).slopes.getD
        (predictIndex (OptimalPLAModel.new data) key) 0 * (key : ℚ) +
      (OptimalPLAModel.new data).intercepts.getD
        (predictIndex (OptimalPLAModel.new data) key) 0 ∧
    needs_bounds_check (OptimalPLAModel.new data) = false ∧
    predictIndex (set_to_constant_model m' c).2 key <
      (set_to_constant_model m' c).2.intercepts.length ∧
    predictIndex (set_to_constant_model m' c).2 key <
      (set_to_constant_model m' c).2.slopes.length ∧
    needs_bounds_check (set_to_constant_model m' c).2 = false := by
  obtain ⟨hIl, hSl, hBl⟩ := new_lengths data
  have hidx : predictIndex (OptimalPLAModel.new data) key ≤
      (OptimalPLAModel.new data).intercepts.length - 1 :=
    min_le_right _ _
  have hI : predictIndex (OptimalPLAModel.new data) key <
      (OptimalPLAModel.new data).intercepts.length := by omega
  have hbne : (OptimalPLAModel.new data).boundaries ≠ [] := by
    intro h
    rw [h] at hBl
    simp at hBl
  have hemp : (OptimalPLAModel.new data).boundaries.isEmpty = false := by
    rw [List.isEmpty_eq_false]
    exact hbne
  refine ⟨hI, by omega, by omega, ?_, rfl, ?_, ?_, rfl⟩
  · rw [predict_to_float, hemp]
    rw [if_neg (by simp)]
  · show predictIndex (⟨[(c : ℚ)], [0], [U64MAX]⟩ : OptimalPLAModel) key < 1
    rw [predictIndex]
    simp
  · show predictIndex (⟨[(c : ℚ)], [0], [U64MAX]⟩ : OptimalPLAModel) key < 1
    rw [predictIndex]
    simp

/-- Keys of sorted data are monotone in the index. -/
theorem sorted_key_getD_mono (data : List TP)
    (hsorted : data.Pairwise (fun p q => p.key ≤ q.key))
    (i j : Nat) (hij : i ≤ j) (hj : j < data.length) :
    (data.getD i tpDefault).key ≤ (data.getD j tpDefault).key := by
  rcases Nat.lt_or_ge i j with h | h
  · rw [List.getD_eq_getElem _ _ (lt_trans h hj), List.getD_eq_getElem _ _ hj]
    exact List.pairwise_iff_getElem.mp hsorted i j _ _ h
  · have : i = j := by omega
    rw [this]

/-- Claim C10: for sorted training data the boundary array of the trained
model is non-decreasing, and all three parameter arrays have the same nonzero
length; the same holds after `set_to_constant_model`. -/
theorem C10_boundary_invariants (data : List TP)
    (hsorted : data.Pairwise (fun p q => p.key ≤ q.key))
    (m' : OptimalPLAModel) (c : Nat) :
    (OptimalPLAModel.new data).boundaries.Pairwise (· ≤ ·) ∧
    (OptimalPLAModel.new data).intercepts.length =
      (OptimalPLAModel.new data).boundaries.length ∧
    (OptimalPLAModel.new data).slopes.length =
      (OptimalPLAModel.new data).boundaries.length ∧
    (OptimalPLAModel.new data).boundaries ≠ [] ∧
    (set_to_constant_model m' c).2.boundaries.Pairwise (· ≤ ·) ∧
    (set_to_constant_model m' c).2.intercepts.length =
      (set_to_constant_model m' c).2.boundaries.length ∧
    (set_to_constant_model m' c).2.slopes.length =
      (set_to_constant_model m' c).2.boundaries.length ∧
    (set_to_constant_model m' c).2.boundaries ≠ [] := by
  obtain ⟨hIl, hSl, hBl⟩ := new_lengths data
  have hbne : (OptimalPLAModel.new data).boundaries ≠ [] := by
    intro h
    rw [h] at hBl
    simp at hBl
  refine ⟨?_, hIl, hSl, hbne, ?_, rfl, rfl, by simp [set_to_constant_model]⟩
  · by_cases hd : data = []
    · subst hd
      rw [new_nil]
      simp
    · rw [new_eq_of_ne_nil data hd]
      show ((plaSegments data).map
        (fun s => getKeyUint data (s.endIdx - 1))).Pairwise (· ≤ ·)
      rw [List.pairwise_map]
      have hchain := segsChained_pairwise (plaSegments data) 0
        (plaSegments_chained data)
        (fun s hs => (plaSegments_inv data s hs).1)
      rw [List.pairwise_iff_getElem] at hchain ⊢
      intro i j hi hj hij
      have hsi : (plaSegments data)[i] ∈ plaSegments data := List.getElem_mem hi
      have hsj : (plaSegments data)[j] ∈ plaSegments data := List.getElem_mem hj
      obtain ⟨hlt_i, hle_i, _, _⟩ := plaSegments_inv data _ hsi
      obtain ⟨hlt_j, hle_j, _, _⟩ := plaSegments_inv data _ hsj
      have hord := hchain i j hi hj hij
      rw [getKeyUint, getKeyUint]
      exact sorted_key_getD_mono data hsorted _ _ (by omega) (by omega)
  · show ([U64MAX] : List Nat).Pairwise (· ≤ ·)
    simp

/-! ### Exact linear data produces a single exact segment -/

/-- The full-range slice is the data itself. -/
theorem dataSlice_full (data : List TP) :
    dataSlice data 0 data.length = data := by
  simp [dataSlice]

/-- On collinear data the greedy loop accepts every extension and produces a
single segment covering the whole data set. -/
theorem plaSegments_on_line (a b : ℚ) (data : List TP) (hne : data ≠ [])
    (hline : OnLineData a b data) :
    plaSegments data = [⟨0, data.length,
      (fit_segment data 0 data.length).1,
      (fit_segment data 0 data.length).2⟩] := by
  have hpos : 0 < data.length := List.length_pos.mpr hne
  obtain ⟨m, hm⟩ : ∃ m, data.length = m + 1 := ⟨data.length - 1, by omega⟩
  rw [plaSegments]
  conv_lhs => rw [hm]
  rw [buildSegmentsAux_step data 0 m hpos]
  have hgrow : growSegment data 0 (0 + 1) data.length = data.length := by
    apply growSegment_all data 0 ?_ data.length (0 + 1) (by omega) (by omega)
    intro e' _
    exact segment_error_exact_le a b data hline 0 e'
  rw [hgrow]
  rw [buildSegmentsAux_terminal data data.length (by omega) m]

/-- The clamped index of a one-segment model is always 0. -/
theorem predictIndex_single (m : OptimalPLAModel)
    (h : m.intercepts.length = 1) (key : Nat) : predictIndex m key = 0 := by
  rw [predictIndex, h]
  simp

/-- Prediction of a one-segment model is its line. -/
theorem predict_single_eq (α β : ℚ) (bd : Nat) (key : Nat) :
    predict_to_float ⟨[α], [β], [bd]⟩ key = β * (key : ℚ) + α := by
  rw [predict_to_float]
  rw [if_neg (by simp)]
  rw [predictIndex_single (⟨[α], [β], [bd]⟩ : OptimalPLAModel) (by simp) key]
  norm_num

/-- Claim C5: for any sorted data set whose positions lie exactly on an
integer line `pos = a * key + b`, optimal-PLA produces exactly one segment
and its predictions equal the true line (exactly, over ℚ); in particular for
the data set `{(i, 2i) : i < 50}` there is one segment and
`predict_to_int` returns 20 at key 10 and 98 at key 49. -/
theorem C5_linear_fit :
    (∀ (a b : ℤ) (data : List TP), data ≠ [] →
      data.Pairwise (fun p q => p.key ≤ q.key) →
      (∀ p ∈ data, (p.pos : ℤ) = a * (p.key : ℤ) + b) →
      (OptimalPLAModel.new data).boundaries.length = 1 ∧
      ∀ p ∈ data,
        predict_to_float (OptimalPLAModel.new data) p.key = (p.pos : ℚ)) ∧
    (OptimalPLAModel.new line50).boundaries.length = 1 ∧
    predict_to_int (OptimalPLAModel.new line50) 10 = 20 ∧
    predict_to_int (OptimalPLAModel.new line50) 49 = 98 := by
  have hgen : ∀ (a b : ℤ) (data : List TP), data ≠ [] →
      data.Pairwise (fun p q => p.key ≤ q.key) →
      (∀ p ∈ data, (p.pos : ℤ) = a * (p.key : ℤ) + b) →
      (OptimalPLAModel.new data).boundaries.length = 1 ∧
      ∀ p ∈ data,
        predict_to_float (OptimalPLAModel.new data) p.key = (p.pos : ℚ) := by
    intro a b data hne hsorted hline
    have hlineQ : OnLineData (a : ℚ) (b : ℚ) data := by
      intro p hp
      exact_mod_cast hline p hp
    have hsegs := plaSegments_on_line (a : ℚ) (b : ℚ) data hne hlineQ
    have hmodel : OptimalPLAModel.new data =
        ⟨[(fit_segment data 0 data.length).1],
         [(fit_segment data 0 data.length).2],
         [getKeyUint data (data.length - 1)]⟩ := by
      rw [new_eq_of_ne_nil data hne, hsegs]
      rfl
    constructor
    · rw [hmodel]
      rfl
    · intro p hp
      rw [hmodel, predict_single_eq]
      have hmem : p ∈ dataSlice data 0 data.length := by
        rw [dataSlice_full]
        exact hp
      exact fit_segment_exact (a : ℚ) (b : ℚ) data hlineQ 0 data.length p hmem
  have hne50 : line50 ≠ [] := by
    intro h
    have := congrArg List.length h
    simp [line50, lineData] at this
  have hsort50 : line50.Pairwise (fun p q => p.key ≤ q.key) := by decide
  have hline50 : ∀ p ∈ line50, (p.pos : ℤ) = 2 * (p.key : ℤ) + 0 := by decide
  have h50 := hgen 2 0 line50 hne50 hsort50 hline50
  have hmem10 : (⟨10, 20⟩ : TP) ∈ line50 := by decide
  have hmem49 : (⟨49, 98⟩ : TP) ∈ line50 := by decide
  have h10 := h50.2 ⟨10, 20⟩ hmem10
  have h49 := h50.2 ⟨49, 98⟩ hmem49
  refine ⟨hgen, h50.1, ?_, ?_⟩
  · rw [predict_to_int]
    have : predict_to_float (OptimalPLAModel.new line50) 10 = 20 := by
      rw [h10]
      norm_num
    rw [this]
    norm_num
    rfl
  · rw [predict_to_int]
    have : predict_to_float (OptimalPLAModel.new line50) 49 = 98 := by
      rw [h49]
      norm_num
    rw [this]
    norm_num
    rfl

/-! ### The greedy loop re-scans: visit counts on collinear data -/

/-- Collinear property of the scenario line data. -/
theorem lineData_on_line (n : Nat) : OnLineData 2 0 (lineData n) := by
  intro p hp
  obtain ⟨i, _, rfl⟩ := List.mem_map.mp hp
  push_cast
  ring

/-- On the `n`-point line data, every candidate extension is accepted, so the
growth loop starting at candidate end `e` reads the first point `2 * (n - e)`
more times. -/
theorem growVisits_lineData (n : Nat) :
    ∀ fuel e, 1 ≤ e → e ≤ n → n - e ≤ fuel →
      growVisits (lineData n) 0 e fuel = 2 * (n - e) := by
  have hlen : (lineData n).length = n := by simp [lineData]
  intro fuel
  induction fuel with
  | zero =>
    intro e h1 h2 h3
    have he : e = n := by omega
    rw [growVisits, he]
    omega
  | succ m ih =>
    intro e h1 h2 h3
    rw [growVisits]
    by_cases hlt : e < (lineData n).length
    · rw [if_pos hlt]
      have herr := segment_error_exact_le 2 0 (lineData n)
        (lineData_on_line n) 0 (e + 1)
      rw [if_pos herr]
      have hrec := ih (e + 1) (by omega) (by omega) (by omega)
      rw [hrec]
      omega
    · rw [if_neg hlt]
      rw [hlen] at hlt
      omega

/-- On the `n`-point line data (n ≥ 1) the first point is read exactly `2 n`
times by the fitting and error computations of the first segment. -/
theorem visits_lineData (n : Nat) (h : 1 ≤ n) :
    visitsOfFirstPoint (lineData n) = 2 * n := by
  have hlen : (lineData n).length = n := by simp [lineData]
  rw [visitsOfFirstPoint, if_neg (by omega)]
  rw [hlen]
  rw [growVisits_lineData n n 1 (le_refl 1) h (by omega)]
  omega

/-- Claim C9 counterexample: the number of times the segmentation reads a
single data point is not bounded by any constant — on the `n`-point collinear
data set the first point is read `2 n` times, because every candidate
extension re-fits (and re-scores) the whole segment from scratch.  This
refutes "each point is visited a bounded number of times" and "never
re-scans prior points of the segment". -/
theorem C9_counterexample :
    ¬ ∃ C : Nat, ∀ n : Nat, visitsOfFirstPoint (lineData n) ≤ C := by
  rintro ⟨C, hC⟩
  have h1 := hC (C + 1)
  have h2 : visitsOfFirstPoint (lineData (C + 1)) = 2 * (C + 1) :=
    visits_lineData (C + 1) (by omega)
  omega

/-- Claim C9 (amended): the segmentation is a single forward pass over
segment start indices, but each candidate extension re-fits the segment with
a fresh single-pass accumulator over the whole candidate range and re-scores
the whole range, re-scanning all prior points of the segment: on the
`n`-point collinear data set the first point is read exactly `2 n` times
(once by `fit_segment` and once by `segment_error` per candidate length), so
the work is quadratic in segment length, not O(N) amortized. -/
theorem C9_amended_rescans (n : Nat) (h : 1 ≤ n) :
    visitsOfFirstPoint (lineData n) = 2 * n :=
  visits_lineData n h

/-- Claim C8: for every data directory and namespace the manifest is written
to the deterministic path `data_dir/<namespace>/manifest.json`, and the
written metadata's structural fields (models, branching factor, build time,
row counts, all error statistics) equal the corresponding fields of the
`TrainedRMI` passed in, unchanged (the file I/O and JSON encoding themselves
are outside the embedding; this verifies the constructed path and record). -/
theorem C8_manifest_write (data_dir nspace key_type : String)
    (rmi : TrainedRMI) (llre : Bool) (layers : List LayerMetadata)
    (cache_fix : Option CacheFixMetadata) :
    manifest_path data_dir nspace =
      data_dir ++ "/" ++ nspace ++ "/" ++ "manifest.json" ∧
    (write_metadata_record nspace key_type rmi llre layers cache_fix).nspace =
      nspace ∧
    (write_metadata_record nspace key_type rmi llre layers cache_fix).key_type =
      key_type ∧
    (write_metadata_record nspace key_type rmi llre layers cache_fix).models =
      rmi.models ∧
    (write_metadata_record nspace key_type rmi llre layers
      cache_fix).branching_factor = rmi.branching_factor ∧
    (write_metadata_record nspace key_type rmi llre layers
      cache_fix).build_time_ns = rmi.build_time ∧
    (write_metadata_record nspace key_type rmi llre layers
      cache_fix).num_rmi_rows = rmi.num_rmi_rows ∧
    (write_metadata_record nspace key_type rmi llre layers
      cache_fix).num_data_rows = rmi.num_data_rows ∧
    (write_metadata_record nspace key_type rmi llre layers
      cache_fix).model_avg_error = rmi.model_avg_error ∧
    (write_metadata_record nspace key_type rmi llre layers
      cache_fix).model_avg_l2_error = rmi.model_avg_l2_error ∧
    (write_metadata_record nspace key_type rmi llre layers
      cache_fix).model_avg_log2_error = rmi.model_avg_log2_error ∧
    (write_metadata_record nspace key_type rmi llre layers
      cache_fix).model_max_error = rmi.model_max_error ∧
    (write_metadata_record nspace key_type rmi llre layers
      cache_fix).model_max_error_idx = rmi.model_max_error_idx ∧
    (write_metadata_record nspace key_type rmi llre layers
      cache_fix).model_max_log2_error = rmi.model_max_log2_error ∧
    (write_metadata_record nspace key_type rmi llre layers
      cache_fix).last_layer_reports_error = llre ∧
    (write_metadata_record nspace key_type rmi llre layers cache_fix).layers =
      layers ∧
    (write_metadata_record nspace key_type rmi llre layers cache_fix).cache_fix =
      cache_fix :=
  ⟨rfl, rfl, rfl, rfl, rfl, rfl, rfl, rfl, rfl, rfl, rfl, rfl, rfl, rfl, rfl,
   rfl, rfl⟩

/-! ### Witnesses -/

/-- Witness for C1 at the two-segment data set `data6`, first segment,
first point. -/
theorem C1_witness :
    0 + 1 < (plaSegments data6).length ∧
    ((plaSegments data6).getD 0 segDefault).startIdx ≤ 0 ∧
    0 < ((plaSegments data6).getD 0 segDefault).endIdx ∧
    |(OptimalPLAModel.new data6).slopes.getD 0 0 *
        ((data6.getD 0 tpDefault).key : ℚ) +
      (OptimalPLAModel.new data6).intercepts.getD 0 0 -
      ((data6.getD 0 tpDefault).pos : ℚ)| ≤ 1 := by
  have h1 : 0 + 1 < (plaSegments data6).length := by
    rw [plaSegments_data6]
    norm_num
  have h2 : ((plaSegments data6).getD 0 segDefault).startIdx ≤ 0 := by
    rw [plaSegments_data6]
    simp
  have h3 : 0 < ((plaSegments data6).getD 0 segDefault).endIdx := by
    rw [plaSegments_data6]
    norm_num
  exact ⟨h1, h2, h3, C1_segment_error_bound data6 0 0 h1 h2 h3⟩

/-- Witness for the amended C2 at the two-segment data set `data6`,
segment 0. -/
theorem C2_witness :
    (OptimalPLAModel.new data6).boundaries.Pairwise (· < ·) ∧
    0 < (OptimalPLAModel.new data6).boundaries.length ∧
    predict_to_float (OptimalPLAModel.new data6)
        ((OptimalPLAModel.new data6).boundaries.getD 0 0) =
      (OptimalPLAModel.new data6).slopes.getD
          (min (0 + 1) ((OptimalPLAModel.new data6).intercepts.length - 1)) 0 *
        (((OptimalPLAModel.new data6).boundaries.getD 0 0 : Nat) : ℚ) +
      (OptimalPLAModel.new data6).intercepts.getD
          (min (0 + 1) ((OptimalPLAModel.new data6).intercepts.length - 1)) 0 := by
  have hs : (OptimalPLAModel.new data6).boundaries.Pairwise (· < ·) := by
    rw [new_data6]
    norm_num
  have hi : 0 < (OptimalPLAModel.new data6).boundaries.length := by
    rw [new_data6]
    norm_num
  exact ⟨hs, hi, C2_amended_boundary_query (OptimalPLAModel.new data6) hs 0 hi⟩

/-- Witness for C3 at the two-segment data set `data6`, query key 2. -/
theorem C3_witness :
    (OptimalPLAModel.new data6).boundaries.Pairwise (· < ·) ∧
    predictIndex (OptimalPLAModel.new data6) 2 =
      min ((OptimalPLAModel.new data6).boundaries.countP (fun b => b ≤ 2))
        ((OptimalPLAModel.new data6).intercepts.length - 1) := by
  have hs : (OptimalPLAModel.new data6).boundaries.Pairwise (· < ·) := by
    rw [new_data6]
    norm_num
  exact ⟨hs, (C3_boundary_search_policy (OptimalPLAModel.new data6) hs 2).1⟩

/-- Witness for the amended C9 on the three-point line data. -/
theorem C9_witness : 1 ≤ 3 ∧ visitsOfFirstPoint (lineData 3) = 2 * 3 :=
  ⟨by norm_num, C9_amended_rescans 3 (by norm_num)⟩

/-- Witness for C10 at the sorted two-cluster data set `data6`. -/
theorem C10_witness :
    data6.Pairwise (fun p q => p.key ≤ q.key) ∧
    (OptimalPLAModel.new data6).boundaries.Pairwise (· ≤ ·) ∧
    (OptimalPLAModel.new data6).boundaries ≠ [] := by
  have hs : data6.Pairwise (fun p q => p.key ≤ q.key) := by
    norm_num [data6]
  have h := C10_boundary_invariants data6 hs (OptimalPLAModel.new data6) 0
  exact ⟨hs, h.1, h.2.2.2.1⟩
end RMI
